import Mathlib

/-
  Verification development for the single-file C pixel-art editor
  (src/C_Pixel_Art_Editor.c).  The canvas is a flat row-major array of
  palette indices (uint8_t), the palette a fixed list of 12 SDL_Color
  values, and the interesting logic is the nearest-color quantizer,
  the BMP export rasterizer and the BMP import sampler, plus the
  SDL event-loop handlers that mutate editor state.
-/

namespace PixelEditor

/-- SDL_Color: four 8-bit channels, modelled as natural numbers.
A value is well formed when every channel fits in a byte (`Valid`). -/
structure SDLColor where
  r : Nat
  g : Nat
  b : Nat
  a : Nat
deriving DecidableEq, Repr

/-- Channels fit in 8 bits, as the C `Uint8` fields guarantee by type. -/
def SDLColor.Valid (c : SDLColor) : Prop :=
  c.r ≤ 255 ∧ c.g ≤ 255 ∧ c.b ≤ 255 ∧ c.a ≤ 255

instance (c : SDLColor) : Decidable c.Valid := by
  unfold SDLColor.Valid; infer_instance

/-- Default color used where the C code would read unspecified memory. -/
def dfltColor : SDLColor := ⟨0, 0, 0, 0⟩

/-- `#define PALETTE_COUNT 12` (line 42). -/
def PALETTE_COUNT : Nat := 12

/-- The palette installed by `init_default_palette` (lines 60-77). -/
def defaultPalette : List SDLColor :=
  [ ⟨255, 255, 255, 255⟩,  -- 0 white (background)
    ⟨0, 0, 0, 255⟩,        -- 1 black
    ⟨255, 0, 0, 255⟩,      -- 2 red
    ⟨0, 255, 0, 255⟩,      -- 3 lime
    ⟨0, 0, 255, 255⟩,      -- 4 blue
    ⟨255, 255, 0, 255⟩,    -- 5 yellow
    ⟨255, 165, 0, 255⟩,    -- 6 orange
    ⟨128, 0, 128, 255⟩,    -- 7 purple
    ⟨0, 255, 255, 255⟩,    -- 8 cyan
    ⟨255, 192, 203, 255⟩,  -- 9 pink
    ⟨128, 128, 128, 255⟩,  -- 10 gray
    ⟨139, 69, 19, 255⟩ ]   -- 11 brown

/-- Squared Euclidean RGB distance, `dr*dr + dg*dg + db*db` with
`int` differences (lines 162-165); alpha is ignored. -/
def colorDist (c p : SDLColor) : Int :=
  ((c.r : Int) - (p.r : Int)) * ((c.r : Int) - (p.r : Int)) +
  ((c.g : Int) - (p.g : Int)) * ((c.g : Int) - (p.g : Int)) +
  ((c.b : Int) - (p.b : Int)) * ((c.b : Int) - (p.b : Int))

/-- The loop of `nearest_palette_index` (lines 161-167): `i` is the index
of the head of the remaining palette `pal`; `best`/`bestd` are the running
argmin and its distance, updated on a strict improvement `d < bestd`. -/
def nearestAux (c : SDLColor) : List SDLColor → Nat → Nat → Int → Nat
  | [], _, best, _ => best
  | p :: rest, i, best, bestd =>
      let d := colorDist c p
      if d < bestd then nearestAux c rest (i + 1) i d
      else nearestAux c rest (i + 1) best bestd

/-- `nearest_palette_index` (lines 158-169): `best = 0`,
`bestd = INT32_MAX`, scan the whole palette. -/
def nearest_palette_index (pal : List SDLColor) (c : SDLColor) : Nat :=
  nearestAux c pal 0 0 2147483647

/-- The pixel word built by the export loop (line 135):
`(col.r<<24) | (col.g<<16) | (col.b<<8) | col.a`. -/
def packRGBA (c : SDLColor) : Nat :=
  (c.r <<< 24) ||| (c.g <<< 16) ||| (c.b <<< 8) ||| c.a

/-- How the SDL surface masks of lines 141-145 decode a stored 32-bit
word into channels: on big endian `Rmask = 0xff000000`, so red is the
high byte; on little endian `Rmask = 0x000000ff`, so red is the low
byte of the word. -/
def interpretColor (isBE : Bool) (p : Nat) : SDLColor :=
  if isBE then
    ⟨(p >>> 24) &&& 255, (p >>> 16) &&& 255, (p >>> 8) &&& 255, p &&& 255⟩
  else
    ⟨p &&& 255, (p >>> 8) &&& 255, (p >>> 16) &&& 255, (p >>> 24) &&& 255⟩

/-- A decoded raster image: dimensions plus a total pixel-read function.
`pixel` takes `Int` coordinates because the C import clamps with signed
ints and can produce `-1` (an out-of-bounds read) when a dimension is 0;
outside `[0,w) × [0,h)` the function returns whatever junk the read hits. -/
structure Image where
  w : Nat
  h : Nat
  pixel : Int → Int → SDLColor

/-- One pixel of the export buffer (lines 129-137): the cell is
`(x / CELL_SIZE, y / CELL_SIZE)`, the word is the packed palette color
of that cell's stored index. -/
def exportPixel (pal : List SDLColor) (W S : Nat) (canvas : List Nat)
    (x y : Nat) : Nat :=
  packRGBA (pal.getD (canvas.getD ((y / S) * W + x / S) 0) dfltColor)

/-- `save_canvas_as_bmp` (lines 122-155) as the raster it serializes:
a `(W*S) × (H*S)` image whose pixels are the packed words decoded
through the surface masks of the build's endianness. -/
def save_canvas_as_bmp (isBE : Bool) (pal : List SDLColor) (W H S : Nat)
    (canvas : List Nat) : Image :=
  { w := W * S
    h := H * S
    pixel := fun x y =>
      if 0 ≤ x ∧ x < (W * S : Nat) ∧ 0 ≤ y ∧ y < (H * S : Nat) then
        interpretColor isBE (exportPixel pal W S canvas x.toNat y.toNat)
      else dfltColor }

/-- Fuel-bounded binary length: `nbitsAux f n` is the number of binary
digits of `n` provided `n < 2 ^ f`. -/
def nbitsAux : Nat → Nat → Nat
  | 0, _ => 0
  | f + 1, n => if n = 0 then 0 else nbitsAux f (n / 2) + 1

/-- Binary length of `n`, valid for `n < 2 ^ 128` — far beyond every
quantity the editor's arithmetic produces. -/
def nbits (n : Nat) : Nat := nbitsAux 128 n

/-- `⌊log₂ n⌋` for `1 ≤ n < 2 ^ 128`. -/
def lg (n : Nat) : Nat := nbits n - 1

/-- Round the ratio `P / Q` (for `Q > 0`) to the nearest integer,
ties to even — the IEEE-754 default rounding. -/
def roundHalfEven (P Q : Nat) : Nat :=
  if 2 * (P % Q) < Q then P / Q
  else if Q < 2 * (P % Q) then P / Q + 1
  else if P / Q % 2 = 0 then P / Q else P / Q + 1

/-- `⌊log₂ (p / q)⌋` for positive naturals: the quotient lies in
`[2^(lg p - lg q - 1), 2^(lg p - lg q + 1))`, and one comparison picks
the half that contains it. -/
def flog2 (p q : Nat) : Int :=
  if q * 2 ^ lg p ≤ p * 2 ^ lg q then (lg p : Int) - lg q
  else (lg p : Int) - (lg q : Int) - 1

/-- IEEE-754 binary64 correctly-rounded quotient `a / b` (round to
nearest, ties to even, 53-bit significand; the exponent is unbounded,
which coincides with binary64 for the magnitudes reachable here), as a
dyadic pair `(m, e)` of value `m·2^e`: the quotient is scaled so that
it lies in `[2^52, 2^53)` and its significand is rounded. -/
def flDivNat (a b : Nat) : Nat × Int :=
  let s : Int := 52 - flog2 a b
  if 0 ≤ s then (roundHalfEven (a * 2 ^ s.toNat) b, -s)
  else (roundHalfEven a (b * 2 ^ (-s).toNat), -s)

/-- IEEE-754 binary64 correctly-rounded product of a dyadic `(m, e)`
and an (exactly representable) natural `k`: exact when the integer
product fits in 53 bits, otherwise the product's significand is rounded
to 53 bits, ties to even. -/
def flMulNat (d : Nat × Int) (k : Nat) : Nat × Int :=
  if d.1 * k < 2 ^ 53 then (d.1 * k, d.2)
  else (roundHalfEven (d.1 * k) (2 ^ (lg (d.1 * k) - 52)),
    d.2 + ((lg (d.1 * k) - 52 : Nat) : Int))

/-- The `(int)` cast (truncation; the value is nonnegative) of a
nonnegative dyadic value `m·2^e`. -/
def dyadicFloor (d : Nat × Int) : Nat :=
  if 0 ≤ d.2 then d.1 * 2 ^ d.2.toNat else d.1 / 2 ^ (-d.2).toNat

/-- The sample-coordinate computation of the import loop (lines
184-187): `sx = (int)(((cx + 0.5) / (double)CELLS) * imgDim)`, modelled
bit-exactly as IEEE binary64: `cx + 0.5` and the int-to-double
conversions are exact, then one correctly-rounded division and one
correctly-rounded multiplication, then truncation.  The two sequential
clamps `if (sx < 0) sx = 0; if (sx >= imgDim) sx = imgDim - 1;`
follow: the first never fires (the value is nonnegative), the second
can produce `-1` when `imgDim = 0`. -/
def clampSample (cells imgDim cIdx : Nat) : Int :=
  let sx : Int :=
    (dyadicFloor (flMulNat (flDivNat (2 * cIdx + 1) (2 * cells)) imgDim) : Nat)
  if (imgDim : Int) ≤ sx then (imgDim : Int) - 1 else sx

/-- One cell of the import loop body (lines 184-191): sample the image
at the clamped center coordinates, force alpha opaque, quantize. -/
def loadCell (pal : List SDLColor) (W H : Nat) (im : Image)
    (cx cy : Nat) : Nat :=
  let sx := clampSample W im.w cx
  let sy := clampSample H im.h cy
  let c := im.pixel sx sy
  nearest_palette_index pal ⟨c.r, c.g, c.b, 255⟩

/-- `load_bmp_to_canvas` (lines 172-196).  `none` stands for
`SDL_LoadBMP` or `SDL_ConvertSurfaceFormat` failing (both return `-1`
before any cell is written).  On success the loop overwrites every cell
`idx = cy*W + cx` and returns `0`; there is no zero-dimension check. -/
def load_bmp_to_canvas (pal : List SDLColor) (W H : Nat)
    (img : Option Image) (canvas : List Nat) : Int × List Nat :=
  match img with
  | none => (-1, canvas)
  | some im =>
      (0, (List.range (W * H)).map fun idx =>
            loadCell pal W H im (idx % W) (idx / W))

/-- Export at cell size `S` then import the produced raster back at the
same grid dimensions, as the round-trip claim composes them. -/
def roundTrip (isBE : Bool) (pal : List SDLColor) (W H S : Nat)
    (canvas : List Nat) : List Nat :=
  (load_bmp_to_canvas pal W H
    (some (save_canvas_as_bmp isBE pal W H S canvas)) canvas).snd

/-- Modelled from the spec: the sample coordinate as §4.3 words it,
`floor((cIdx + 0.5) / cells * imgDim)` clamped to `[0, imgDim - 1]`
(the low clamp is automatic over ℕ).  Compared against `clampSample`,
which is translated from the code. -/
def sampleSpec (cells imgDim cIdx : Nat) : Nat :=
  min (imgDim - 1) (((2 * cIdx + 1) * imgDim) / (2 * cells))

/-- `clear_canvas` (lines 79-82): `memset(canvas, 0, CELLS_X*CELLS_Y)`. -/
def clear_canvas (W H : Nat) : List Nat :=
  List.replicate (W * H) 0

/-- The guarded cell write of the paint handlers (lines 236-238 and
260-262): bounds-check the cell coordinates, then store the color as a
`uint8_t` (value modulo 256); out of bounds nothing happens. -/
def paint (W H : Nat) (canvas : List Nat) (x y : Int) (color : Int) :
    List Nat :=
  if 0 ≤ x ∧ x < (W : Int) ∧ 0 ≤ y ∧ y < (H : Int) then
    canvas.set (y.toNat * W + x.toNat) (color % 256).toNat
  else canvas

/-- A cell read, `canvas[y*CELLS_X + x]` (line 88-89). -/
def get (W : Nat) (canvas : List Nat) (x y : Nat) : Nat :=
  canvas.getD (y * W + x) 0

/-- The mutable program state driven by the event loop: the globals
`canvas`, `palette`, `current_color`, `show_grid`, `CELLS_X`, `CELLS_Y`,
`CELL_SIZE` plus `main`'s locals `mouse_down`, `mouse_button`. -/
structure EditorState where
  cellsX : Nat
  cellsY : Nat
  cellSize : Nat
  canvas : List Nat
  palette : List SDLColor
  currentColor : Int
  showGrid : Bool
  mouseIsDown : Bool
  mouseButton : Nat

/-- The SDL events the loop reacts to.  `keyLoad` carries the file
system's response (the decoded image, or `none` when SDL fails to load
or convert); `keyDigit n` carries `k - SDLK_0`. -/
inductive Event where
  | mouseButtonDown (button : Nat) (mx my : Int)
  | mouseButtonUp
  | mouseMotion (mx my : Int)
  | keyClear
  | keyToggleGrid
  | keySave
  | keyLoad (img : Option Image)
  | keyLeftBracket
  | keyRightBracket
  | keyDigit (n : Nat)

/-- The canvas branch of the pointer handlers (lines 233-239, 257-264):
divide the pixel position by `CELL_SIZE` with C truncating division,
then paint with the current color (left button = 1) or erase
(right button = 3). -/
def paintAt (s : EditorState) (button : Nat) (mx my : Int) : EditorState :=
  let cx := Int.tdiv mx (s.cellSize : Int)
  let cy := Int.tdiv my (s.cellSize : Int)
  if button = 1 then
    { s with canvas := paint s.cellsX s.cellsY s.canvas cx cy s.currentColor }
  else if button = 3 then
    { s with canvas := paint s.cellsX s.cellsY s.canvas cx cy 0 }
  else s

/-- The palette-click branch (lines 240-251): `box = 24`, `spacing = 8`,
slot geometry two columns wide, guarded assignment to `current_color`. -/
def paletteClick (s : EditorState) (mx my : Int) : EditorState :=
  let palX : Int := (s.cellsX * s.cellSize : Nat) + 10
  let relx := mx - palX
  if 0 ≤ relx then
    let col := Int.tdiv relx 32
    let row := Int.tdiv (my - 10) 32
    let idx := row * 2 + col
    if 0 ≤ idx ∧ idx < (PALETTE_COUNT : Int) then
      { s with currentColor := idx }
    else s
  else s

/-- One iteration of the event dispatch (lines 229-302). -/
def step (s : EditorState) (e : Event) : EditorState :=
  match e with
  | .mouseButtonDown button mx my =>
      let s1 := { s with mouseIsDown := true, mouseButton := button }
      if mx < (s1.cellsX * s1.cellSize : Nat) then paintAt s1 button mx my
      else paletteClick s1 mx my
  | .mouseButtonUp => { s with mouseIsDown := false }
  | .mouseMotion mx my =>
      if s.mouseIsDown then
        if mx < (s.cellsX * s.cellSize : Nat) then
          paintAt s s.mouseButton mx my
        else s
      else s
  | .keyClear => { s with canvas := clear_canvas s.cellsX s.cellsY }
  | .keyToggleGrid => { s with showGrid := !s.showGrid }
  | .keySave => s
  | .keyLoad img =>
      { s with canvas :=
          (load_bmp_to_canvas s.palette s.cellsX s.cellsY img s.canvas).snd }
  | .keyLeftBracket =>
      if 4 < s.cellSize then { s with cellSize := s.cellSize - 1 } else s
  | .keyRightBracket => { s with cellSize := s.cellSize + 1 }
  | .keyDigit n =>
      if n < PALETTE_COUNT then { s with currentColor := (n : Int) } else s

/-- Startup (lines 198-207): grid dimensions from the command line,
falling back to 32 when non-positive; canvas allocated zeroed and
cleared; default palette; `current_color = 1`; `show_grid = 1`;
`CELL_SIZE = 16`. -/
def initState (w h : Int) : EditorState :=
  let X := if w ≤ 0 then 32 else w.toNat
  let Y := if h ≤ 0 then 32 else h.toNat
  { cellsX := X
    cellsY := Y
    cellSize := 16
    canvas := clear_canvas X Y
    palette := defaultPalette
    currentColor := 1
    showGrid := true
    mouseIsDown := false
    mouseButton := 0 }

/-- Run the event loop over a list of delivered events. -/
def run (s : EditorState) (events : List Event) : EditorState :=
  events.foldl step s

/-- A zero-width image as the import loop would receive it when the
loader delivers a surface with `w = 0` (pixel reads return junk). -/
def zeroWidthImage : Image :=
  ⟨0, 1, fun _ _ => ⟨9, 9, 9, 9⟩⟩

theorem getD_set_self (l : List Nat) (n a : Nat) (h : n < l.length) :
    (l.set n a).getD n 0 = a := by
  induction l generalizing n with
  | nil => simp at h
  | cons x xs ih =>
      cases n with
      | zero => simp [List.set]
      | succ m =>
          simp only [List.set, List.getD_cons_succ]
          exact ih m (by simpa using h)

theorem getD_replicate_zero (n i : Nat) :
    (List.replicate n (0 : Nat)).getD i 0 = 0 := by
  induction n generalizing i with
  | zero => simp [List.getD]
  | succ m ih =>
      cases i with
      | zero => simp [List.replicate_succ]
      | succ j => simp [List.replicate_succ, List.getD_cons_succ, ih j]

theorem cell_index_lt (W H x y : Nat) (hx : x < W) (hy : y < H) :
    y * W + x < W * H := by
  calc y * W + x < (y + 1) * W := by rw [Nat.succ_mul]; omega
    _ ≤ H * W := Nat.mul_le_mul_right W hy
    _ = W * H := Nat.mul_comm H W

theorem colorDist_nonneg (c p : SDLColor) : 0 ≤ colorDist c p := by
  unfold colorDist
  nlinarith [mul_self_nonneg ((c.r : Int) - (p.r : Int)),
    mul_self_nonneg ((c.g : Int) - (p.g : Int)),
    mul_self_nonneg ((c.b : Int) - (p.b : Int))]

theorem colorDist_eq_zero_iff (c p : SDLColor) :
    colorDist c p = 0 ↔ (p.r = c.r ∧ p.g = c.g ∧ p.b = c.b) := by
  unfold colorDist
  constructor
  · intro h
    have hr : ((c.r : Int) - (p.r : Int)) * ((c.r : Int) - (p.r : Int)) = 0 := by
      nlinarith [mul_self_nonneg ((c.r : Int) - (p.r : Int)),
        mul_self_nonneg ((c.g : Int) - (p.g : Int)),
        mul_self_nonneg ((c.b : Int) - (p.b : Int))]
    have hg : ((c.g : Int) - (p.g : Int)) * ((c.g : Int) - (p.g : Int)) = 0 := by
      nlinarith [mul_self_nonneg ((c.r : Int) - (p.r : Int)),
        mul_self_nonneg ((c.g : Int) - (p.g : Int)),
        mul_self_nonneg ((c.b : Int) - (p.b : Int))]
    have hb : ((c.b : Int) - (p.b : Int)) * ((c.b : Int) - (p.b : Int)) = 0 := by
      nlinarith [mul_self_nonneg ((c.r : Int) - (p.r : Int)),
        mul_self_nonneg ((c.g : Int) - (p.g : Int)),
        mul_self_nonneg ((c.b : Int) - (p.b : Int))]
    have hr0 := mul_self_eq_zero.mp hr
    have hg0 := mul_self_eq_zero.mp hg
    have hb0 := mul_self_eq_zero.mp hb
    refine ⟨by omega, by omega, by omega⟩
  · rintro ⟨h1, h2, h3⟩
    rw [h1, h2, h3]
    ring

theorem colorDist_le_bound (c p : SDLColor) (hc : c.Valid) (hp : p.Valid) :
    colorDist c p ≤ 195075 := by
  obtain ⟨h1, h2, h3, _⟩ := hc
  obtain ⟨g1, g2, g3, _⟩ := hp
  have i1 : (c.r : Int) ≤ 255 := by exact_mod_cast h1
  have i2 : (c.g : Int) ≤ 255 := by exact_mod_cast h2
  have i3 : (c.b : Int) ≤ 255 := by exact_mod_cast h3
  have j1 : (p.r : Int) ≤ 255 := by exact_mod_cast g1
  have j2 : (p.g : Int) ≤ 255 := by exact_mod_cast g2
  have j3 : (p.b : Int) ≤ 255 := by exact_mod_cast g3
  have n1 : (0 : Int) ≤ c.r := Int.ofNat_nonneg _
  have n2 : (0 : Int) ≤ c.g := Int.ofNat_nonneg _
  have n3 : (0 : Int) ≤ c.b := Int.ofNat_nonneg _
  have m1 : (0 : Int) ≤ p.r := Int.ofNat_nonneg _
  have m2 : (0 : Int) ≤ p.g := Int.ofNat_nonneg _
  have m3 : (0 : Int) ≤ p.b := Int.ofNat_nonneg _
  unfold colorDist
  nlinarith [mul_self_nonneg ((c.r : Int) - (p.r : Int)),
    mul_self_nonneg ((c.g : Int) - (p.g : Int)),
    mul_self_nonneg ((c.b : Int) - (p.b : Int))]

/-- Full characterization of the scan loop of `nearest_palette_index`:
either no element of the remaining palette beats the incoming `bestd`
and the incoming `best` is returned, or the result is the offset `i`
plus the position of the first element achieving the minimum distance
among those strictly below `bestd`. -/
theorem nearestAux_spec (c : SDLColor) (pal : List SDLColor) :
    ∀ (i best : Nat) (bestd : Int),
    (nearestAux c pal i best bestd = best ∧
      ∀ j, j < pal.length → bestd ≤ colorDist c (pal.getD j dfltColor))
    ∨ (∃ j, j < pal.length ∧ nearestAux c pal i best bestd = i + j ∧
        colorDist c (pal.getD j dfltColor) < bestd ∧
        (∀ k, k < pal.length →
          colorDist c (pal.getD j dfltColor) ≤ colorDist c (pal.getD k dfltColor)) ∧
        (∀ k, k < j →
          colorDist c (pal.getD j dfltColor) < colorDist c (pal.getD k dfltColor))) := by
  induction pal with
  | nil =>
      intro i best bestd
      left
      exact ⟨rfl, fun j hj => absurd hj (by simp)⟩
  | cons p rest ih =>
      intro i best bestd
      by_cases hd : colorDist c p < bestd
      · have hstep : nearestAux c (p :: rest) i best bestd
            = nearestAux c rest (i + 1) i (colorDist c p) := by
          simp [nearestAux, hd]
        rcases ih (i + 1) i (colorDist c p) with ⟨heq, hall⟩ | ⟨j, hj, heq, hlt, hmin, hstrict⟩
        · right
          refine ⟨0, by simp, ?_, ?_, ?_, ?_⟩
          · rw [hstep, heq]; omega
          · simpa [List.getD_cons_zero] using hd
          · intro k hk
            cases k with
            | zero => simp
            | succ m =>
                simp only [List.getD_cons_zero, List.getD_cons_succ]
                exact hall m (by simpa using hk)
          · intro k hk; omega
        · right
          refine ⟨j + 1, by simpa using hj, ?_, ?_, ?_, ?_⟩
          · rw [hstep, heq]; omega
          · simp only [List.getD_cons_succ]
            omega
          · intro k hk
            cases k with
            | zero =>
                simp only [List.getD_cons_succ, List.getD_cons_zero]
                omega
            | succ m =>
                simp only [List.getD_cons_succ]
                exact hmin m (by simpa using hk)
          · intro k hk
            cases k with
            | zero =>
                simp only [List.getD_cons_succ, List.getD_cons_zero]
                omega
            | succ m =>
                simp only [List.getD_cons_succ]
                exact hstrict m (by omega)
      · have hstep : nearestAux c (p :: rest) i best bestd
            = nearestAux c rest (i + 1) best bestd := by
          simp [nearestAux, hd]
        rcases ih (i + 1) best bestd with ⟨heq, hall⟩ | ⟨j, hj, heq, hlt, hmin, hstrict⟩
        · left
          refine ⟨by rw [hstep, heq], ?_⟩
          intro j hj
          cases j with
          | zero => simp only [List.getD_cons_zero]; omega
          | succ m =>
              simp only [List.getD_cons_succ]
              exact hall m (by simpa using hj)
        · right
          refine ⟨j + 1, by simpa using hj, ?_, ?_, ?_, ?_⟩
          · rw [hstep, heq]; omega
          · simpa [List.getD_cons_succ] using hlt
          · intro k hk
            cases k with
            | zero =>
                simp only [List.getD_cons_succ, List.getD_cons_zero]
                omega
            | succ m =>
                simp only [List.getD_cons_succ]
                exact hmin m (by simpa using hk)
          · intro k hk
            cases k with
            | zero =>
                simp only [List.getD_cons_succ, List.getD_cons_zero]
                omega
            | succ m =>
                simp only [List.getD_cons_succ]
                exact hstrict m (by omega)

/-- The returned index is always valid for a non-empty palette — even
when the (unreachable) no-improvement branch returns the initial 0. -/
theorem nearest_lt_length (pal : List SDLColor) (c : SDLColor)
    (h : pal ≠ []) : nearest_palette_index pal c < pal.length := by
  have hspec := nearestAux_spec c pal 0 0 2147483647
  unfold nearest_palette_index
  rcases hspec with ⟨heq, _⟩ | ⟨j, hj, heq, _⟩
  · rw [heq]
    cases pal with
    | nil => exact absurd rfl h
    | cons q qs => simp
  · rw [heq]; omega

/-- C3: for every valid input color and non-empty palette of valid
colors, `nearest_palette_index` returns an index in range that
minimizes the squared RGB distance, every strictly earlier index has a
strictly larger distance (ties break to the lowest index), and on a
color whose RGB occurs in the palette it returns the lowest index
carrying that RGB — hence entry `k` itself when colors are pairwise
distinct. -/
theorem C3_nearest_palette_index_minimizes (pal : List SDLColor)
    (c : SDLColor) (hne : pal ≠ []) (hpal : ∀ p ∈ pal, p.Valid)
    (hc : c.Valid) :
    nearest_palette_index pal c < pal.length ∧
    (∀ j, j < pal.length →
      colorDist c (pal.getD (nearest_palette_index pal c) dfltColor)
        ≤ colorDist c (pal.getD j dfltColor)) ∧
    (∀ j, j < nearest_palette_index pal c →
      colorDist c (pal.getD (nearest_palette_index pal c) dfltColor)
        < colorDist c (pal.getD j dfltColor)) ∧
    (∀ k, k < pal.length →
      (pal.getD k dfltColor).r = c.r → (pal.getD k dfltColor).g = c.g →
      (pal.getD k dfltColor).b = c.b →
      nearest_palette_index pal c ≤ k ∧
      (pal.getD (nearest_palette_index pal c) dfltColor).r = c.r ∧
      (pal.getD (nearest_palette_index pal c) dfltColor).g = c.g ∧
      (pal.getD (nearest_palette_index pal c) dfltColor).b = c.b) := by
  have hspec := nearestAux_spec c pal 0 0 2147483647
  have hlen0 : 0 < pal.length := by
    cases pal with
    | nil => exact absurd rfl hne
    | cons q qs => simp
  rcases hspec with ⟨heq, hall⟩ | ⟨j, hj, heq, hlt, hmin, hstrict⟩
  · -- the no-improvement branch is impossible: the first entry's
    -- distance is at most 195075 < INT32_MAX
    exfalso
    have hmem : pal.getD 0 dfltColor ∈ pal := by
      rw [List.getD_eq_getElem pal dfltColor hlen0]
      exact List.getElem_mem hlen0
    have hbound := colorDist_le_bound c (pal.getD 0 dfltColor) hc (hpal _ hmem)
    have := hall 0 hlen0
    omega
  · have hres : nearest_palette_index pal c = j := by
      unfold nearest_palette_index
      rw [heq]
      omega
    rw [hres]
    refine ⟨hj, hmin, hstrict, ?_⟩
    intro k hk hr hg hb
    have hdk : colorDist c (pal.getD k dfltColor) = 0 :=
      (colorDist_eq_zero_iff c _).mpr ⟨hr, hg, hb⟩
    have hdj0 : colorDist c (pal.getD j dfltColor) = 0 := by
      have h1 := hmin k hk
      have h2 := colorDist_nonneg c (pal.getD j dfltColor)
      omega
    have hjk : j ≤ k := by
      by_contra hcon
      have := hstrict k (by omega)
      omega
    obtain ⟨e1, e2, e3⟩ := (colorDist_eq_zero_iff c _).mp hdj0
    exact ⟨hjk, e1, e2, e3⟩

/-- C3 witness: the hypotheses hold for the default palette and the
color (200, 40, 40, 255), and the returned index is in range. -/
theorem C3_nearest_palette_index_minimizes_witness :
    (defaultPalette ≠ [] ∧ (∀ p ∈ defaultPalette, p.Valid) ∧
      SDLColor.Valid ⟨200, 40, 40, 255⟩) ∧
    nearest_palette_index defaultPalette ⟨200, 40, 40, 255⟩
      < defaultPalette.length :=
  ⟨⟨by decide, by decide, by decide⟩,
   (C3_nearest_palette_index_minimizes defaultPalette ⟨200, 40, 40, 255⟩
      (by decide) (by decide) (by decide)).1⟩

theorem getD_range_map (n i : Nat) (f : Nat → Nat) (d : Nat) (h : i < n) :
    ((List.range n).map f).getD i d = f i := by
  rw [List.getD_eq_getElem _ _ (by simpa using h)]
  simp

theorem nbitsAux_zero (f : Nat) : nbitsAux f 0 = 0 := by
  cases f <;> simp [nbitsAux]

theorem nbitsAux_spec (f : Nat) : ∀ n, 1 ≤ n → n < 2 ^ f →
    1 ≤ nbitsAux f n ∧ 2 ^ (nbitsAux f n - 1) ≤ n ∧ n < 2 ^ nbitsAux f n := by
  induction f with
  | zero =>
      intro n h1 h2
      rw [pow_zero] at h2
      omega
  | succ f ih =>
      intro n h1 h2
      have hne : ¬(n = 0) := by omega
      simp only [nbitsAux, if_neg hne]
      by_cases h12 : n / 2 = 0
      · have hn1 : n = 1 := by omega
        subst hn1
        rw [show (1 : Nat) / 2 = 0 from rfl, nbitsAux_zero]
        norm_num
      · have hdiv : n / 2 < 2 ^ f := by
          have hp : (2 : Nat) ^ (f + 1) = 2 ^ f * 2 := by rw [pow_succ]
          omega
        obtain ⟨c1, c2, c3⟩ := ih (n / 2) (by omega) hdiv
        refine ⟨by omega, ?_, ?_⟩
        · have e0 : nbitsAux f (n / 2) + 1 - 1 = nbitsAux f (n / 2) := by omega
          rw [e0]
          have e1 : (2 : Nat) ^ nbitsAux f (n / 2)
              = 2 * 2 ^ (nbitsAux f (n / 2) - 1) := by
            conv_lhs => rw [show nbitsAux f (n / 2) = (nbitsAux f (n / 2) - 1) + 1 by omega]
            rw [pow_succ']
          omega
        · have e2 : (2 : Nat) ^ (nbitsAux f (n / 2) + 1)
              = 2 * 2 ^ nbitsAux f (n / 2) := by rw [pow_succ']
          omega

theorem lg_spec (n : Nat) (h1 : 1 ≤ n) (h2 : n < 2 ^ 128) :
    2 ^ lg n ≤ n ∧ n < 2 ^ (lg n + 1) := by
  obtain ⟨c1, c2, c3⟩ := nbitsAux_spec 128 n h1 h2
  unfold lg nbits
  refine ⟨c2, ?_⟩
  have e : nbitsAux 128 n - 1 + 1 = nbitsAux 128 n := by omega
  rw [e]
  exact c3

theorem lg_eq_of (n r : Nat) (hl : 2 ^ r ≤ n) (hu : n < 2 ^ (r + 1))
    (hn : n < 2 ^ 128) : lg n = r := by
  have h1 : 1 ≤ n := by have := Nat.two_pow_pos r; omega
  obtain ⟨a, b⟩ := lg_spec n h1 hn
  rcases Nat.lt_trichotomy (lg n) r with hlt | heq | hgt
  · have := Nat.pow_le_pow_right (by omega : 0 < 2) (by omega : lg n + 1 ≤ r)
    omega
  · exact heq
  · have := Nat.pow_le_pow_right (by omega : 0 < 2) (by omega : r + 1 ≤ lg n)
    omega

theorem lg_two_pow (k : Nat) (hk : k ≤ 127) : lg (2 ^ k) = k :=
  lg_eq_of _ k (le_refl _) (Nat.pow_lt_pow_right (by omega) (by omega))
    (Nat.pow_lt_pow_right (by omega) (by omega))

theorem lg_mono (a b : Nat) (h1 : 1 ≤ a) (hab : a ≤ b) (hb : b < 2 ^ 128) :
    lg a ≤ lg b := by
  obtain ⟨a1, a2⟩ := lg_spec a h1 (by omega)
  obtain ⟨b1, b2⟩ := lg_spec b (by omega) hb
  by_contra hc
  have h3 : lg b + 1 ≤ lg a := by omega
  have := Nat.pow_le_pow_right (by omega : 0 < 2) h3
  omega

theorem lg_le_of_lt_two_pow (n e : Nat) (h1 : 1 ≤ n) (he : e ≤ 127)
    (h : n < 2 ^ (e + 1)) : lg n ≤ e := by
  have h128 : n < 2 ^ 128 :=
    lt_of_lt_of_le h (Nat.pow_le_pow_right (by omega) (by omega))
  obtain ⟨a1, a2⟩ := lg_spec n h1 h128
  by_contra hc
  have := Nat.pow_le_pow_right (by omega : 0 < 2) (by omega : e + 1 ≤ lg n)
  omega

theorem roundHalfEven_of_dvd (P Q : Nat) (hQ : 0 < Q) (h : Q ∣ P) :
    roundHalfEven P Q = P / Q := by
  obtain ⟨c, rfl⟩ := h
  unfold roundHalfEven
  rw [Nat.mul_mod_right]
  rw [if_pos (by omega)]

theorem roundHalfEven_le (P Q : Nat) : roundHalfEven P Q ≤ P / Q + 1 := by
  unfold roundHalfEven
  split
  · omega
  · split
    · omega
    · split <;> omega

/-- Exact path of the double pipeline: dividing by a power of two is
exact in binary floating point, and when the integer product of the
numerator and the image dimension fits in 53 bits the subsequent
product rounds to its exact value (or to an exactly-representable
value with trailing zeros); truncating then yields exactly the
rational floor. -/
theorem pipeline_pow2 (a imgDim j : Nat) (ha : 1 ≤ a) (hdim : 1 ≤ imgDim)
    (hu : a * imgDim < 2 ^ 53) (hj1 : 1 ≤ j) (hj2 : j ≤ 61) :
    dyadicFloor (flMulNat (flDivNat a (2 ^ j)) imgDim) = a * imgDim / 2 ^ j := by
  have ha53 : a < 2 ^ 53 := by
    have := Nat.le_mul_of_pos_right a (by omega : 0 < imgDim)
    omega
  have hla52 : lg a ≤ 52 := lg_le_of_lt_two_pow a 52 ha (by omega) ha53
  have ha128 : a < 2 ^ 128 :=
    lt_of_lt_of_le ha53 (Nat.pow_le_pow_right (by omega) (by omega))
  obtain ⟨hA1, hA2⟩ := lg_spec a ha ha128
  have hlgpow : lg (2 ^ j) = j := lg_two_pow j (by omega)
  have hcond : 2 ^ j * 2 ^ lg a ≤ a * 2 ^ lg (2 ^ j) := by
    rw [hlgpow, Nat.mul_comm (2 ^ j) (2 ^ lg a)]
    exact Nat.mul_le_mul_right _ hA1
  have hflog : flog2 a (2 ^ j) = (lg a : Int) - j := by
    simp only [flog2]
    rw [if_pos hcond, hlgpow]
  have hs : (52 : Int) - flog2 a (2 ^ j) = ((52 - lg a + j : Nat) : Int) := by
    rw [hflog]
    omega
  simp only [flDivNat]
  rw [hs, if_pos (Int.natCast_nonneg _), Int.toNat_natCast]
  have hm : roundHalfEven (a * 2 ^ (52 - lg a + j)) (2 ^ j) = a * 2 ^ (52 - lg a) := by
    have hsplit : a * 2 ^ (52 - lg a + j) = a * 2 ^ (52 - lg a) * 2 ^ j := by
      rw [pow_add, Nat.mul_assoc]
    rw [hsplit, roundHalfEven_of_dvd _ _ (Nat.two_pow_pos j) (dvd_mul_left _ _)]
    exact Nat.mul_div_cancel _ (Nat.two_pow_pos j)
  rw [hm]
  have hP : a * 2 ^ (52 - lg a) * imgDim = a * imgDim * 2 ^ (52 - lg a) := by ring
  have hu1 : 1 ≤ a * imgDim := by
    have := Nat.mul_le_mul ha hdim
    omega
  simp only [flMulNat]
  rw [hP]
  by_cases hPlt : a * imgDim * 2 ^ (52 - lg a) < 2 ^ 53
  · rw [if_pos hPlt]
    simp only [dyadicFloor]
    rw [if_neg (by omega)]
    have ht : (- -((52 - lg a + j : Nat) : Int)).toNat = 52 - lg a + j := by omega
    rw [ht, pow_add, Nat.mul_comm (2 ^ (52 - lg a)) (2 ^ j)]
    exact Nat.mul_div_mul_right _ _ (Nat.two_pow_pos _)
  · rw [if_neg hPlt]
    have hu128 : a * imgDim < 2 ^ 128 :=
      lt_of_lt_of_le hu (Nat.pow_le_pow_right (by omega) (by omega))
    obtain ⟨hU1, hU2⟩ := lg_spec (a * imgDim) hu1 hu128
    have hlu52 : lg (a * imgDim) ≤ 52 := lg_le_of_lt_two_pow _ 52 hu1 (by omega) hu
    have hlgP : lg (a * imgDim * 2 ^ (52 - lg a)) = lg (a * imgDim) + (52 - lg a) := by
      apply lg_eq_of
      · rw [pow_add]
        exact Nat.mul_le_mul_right _ hU1
      · have e : lg (a * imgDim) + (52 - lg a) + 1 = (lg (a * imgDim) + 1) + (52 - lg a) := by
          omega
        rw [e, pow_add]
        exact (Nat.mul_lt_mul_right (Nat.two_pow_pos _)).mpr hU2
      · calc a * imgDim * 2 ^ (52 - lg a) ≤ 2 ^ 53 * 2 ^ 52 := by
              exact Nat.mul_le_mul (le_of_lt hu)
                (Nat.pow_le_pow_right (by omega) (by omega))
          _ < 2 ^ 128 := by
              rw [← pow_add]
              exact Nat.pow_lt_pow_right (by omega) (by omega)
    have h53P : 53 ≤ lg (a * imgDim * 2 ^ (52 - lg a)) := by
      by_contra hc
      have hb1 : 1 ≤ a * imgDim * 2 ^ (52 - lg a) := by
        have := Nat.two_pow_pos (52 - lg a)
        have := Nat.mul_le_mul hu1 (Nat.two_pow_pos (52 - lg a))
        omega
      have hb128 : a * imgDim * 2 ^ (52 - lg a) < 2 ^ 128 := by
        calc a * imgDim * 2 ^ (52 - lg a) ≤ 2 ^ 53 * 2 ^ 52 :=
              Nat.mul_le_mul (le_of_lt hu) (Nat.pow_le_pow_right (by omega) (by omega))
          _ < 2 ^ 128 := by
              rw [← pow_add]
              exact Nat.pow_lt_pow_right (by omega) (by omega)
      obtain ⟨p1, p2⟩ := lg_spec _ hb1 hb128
      have := Nat.pow_le_pow_right (by omega : 0 < 2)
        (by omega : lg (a * imgDim * 2 ^ (52 - lg a)) + 1 ≤ 53)
      omega
    have hlula : lg a ≤ lg (a * imgDim) := by
      have := lg_mono a (a * imgDim)
        ha (Nat.le_mul_of_pos_right a (by omega)) hu128
      exact this
    have ht : lg (a * imgDim * 2 ^ (52 - lg a)) - 52 = lg (a * imgDim) - lg a := by
      omega
    rw [ht]
    have hmul : a * imgDim * 2 ^ (52 - lg a)
        = a * imgDim * 2 ^ (52 - lg (a * imgDim)) * 2 ^ (lg (a * imgDim) - lg a) := by
      have e : 52 - lg a = (52 - lg (a * imgDim)) + (lg (a * imgDim) - lg a) := by
        omega
      rw [e, pow_add]
      ring
    have hm2 : roundHalfEven (a * imgDim * 2 ^ (52 - lg a))
        (2 ^ (lg (a * imgDim) - lg a))
        = a * imgDim * 2 ^ (52 - lg (a * imgDim)) := by
      rw [hmul, roundHalfEven_of_dvd _ _ (Nat.two_pow_pos _) (dvd_mul_left _ _)]
      exact Nat.mul_div_cancel _ (Nat.two_pow_pos _)
    rw [hm2]
    have he : (-((52 - lg a + j : Nat) : Int) + ((lg (a * imgDim) - lg a : Nat) : Int))
        = -(((52 - lg (a * imgDim) + j : Nat) : Int)) := by
      omega
    rw [he]
    simp only [dyadicFloor]
    rw [if_neg (by omega)]
    have ht2 : (- -((52 - lg (a * imgDim) + j : Nat) : Int)).toNat
        = 52 - lg (a * imgDim) + j := by omega
    rw [ht2, pow_add, Nat.mul_comm (2 ^ (52 - lg (a * imgDim))) (2 ^ j)]
    exact Nat.mul_div_mul_right _ _ (Nat.two_pow_pos _)

/-- For a 1-pixel image dimension the pipeline's sample coordinate is
0 for every in-range cell of any grid of realistic size: the rounded
quotient stays strictly below 1, multiplying by 1 is exact, and the
truncation gives 0. -/
theorem pipeline_one (a b : Nat) (ha : 1 ≤ a) (hab : a < b)
    (hb : b < 2 ^ 52) :
    dyadicFloor (flMulNat (flDivNat a b) 1) = 0 := by
  have hb128 : b < 2 ^ 128 :=
    lt_of_lt_of_le hb (Nat.pow_le_pow_right (by omega) (by omega))
  obtain ⟨hA1, hA2⟩ := lg_spec a ha (by omega)
  obtain ⟨hB1, hB2⟩ := lg_spec b (by omega) hb128
  have hmono : lg a ≤ lg b := lg_mono a b ha (by omega) hb128
  have main : ∀ d : Nat, a * 2 ^ d < 2 * b →
      dyadicFloor (flMulNat
        (roundHalfEven (a * 2 ^ (52 + d)) b, -((52 + d : Nat) : Int)) 1) = 0 := by
    intro d hd
    have hm1 : roundHalfEven (a * 2 ^ (52 + d)) b < 2 ^ (52 + d) := by
      have h1 : a * 2 ^ (52 + d) ≤ (b - 1) * 2 ^ (52 + d) :=
        Nat.mul_le_mul_right _ (by omega)
      have h2 : roundHalfEven (a * 2 ^ (52 + d)) b
          ≤ (b - 1) * 2 ^ (52 + d) / b + 1 := by
        have hr := roundHalfEven_le (a * 2 ^ (52 + d)) b
        have hdm := Nat.div_le_div_right (c := b) h1
        omega
      have h3 : (b - 1) * 2 ^ (52 + d) / b < 2 ^ (52 + d) - 1 := by
        rw [Nat.div_lt_iff_lt_mul (by omega)]
        have e1 : (b - 1) * 2 ^ (52 + d) = b * 2 ^ (52 + d) - 2 ^ (52 + d) := by
          rw [Nat.sub_mul, one_mul]
        have e2 : (2 ^ (52 + d) - 1) * b = b * 2 ^ (52 + d) - b := by
          rw [Nat.sub_mul, one_mul, Nat.mul_comm]
        have e3 : b ≤ b * 2 ^ (52 + d) :=
          Nat.le_mul_of_pos_right b (Nat.two_pow_pos _)
        have e4 : 2 ^ (52 + d) ≤ b * 2 ^ (52 + d) :=
          Nat.le_mul_of_pos_left _ (by omega)
        have e5 : b < 2 ^ (52 + d) :=
          lt_of_lt_of_le hb (Nat.pow_le_pow_right (by omega) (by omega))
        omega
      have hp := Nat.two_pow_pos (52 + d)
      omega
    have hm2 : roundHalfEven (a * 2 ^ (52 + d)) b < 2 ^ 53 := by
      have h1 : a * 2 ^ (52 + d) ≤ (2 * b - 1) * 2 ^ 52 := by
        have e1 : a * 2 ^ (52 + d) = a * 2 ^ d * 2 ^ 52 := by
          rw [Nat.mul_assoc, ← pow_add]
          congr 2
          omega
        rw [e1]
        exact Nat.mul_le_mul_right _ (by omega)
      have h2 : roundHalfEven (a * 2 ^ (52 + d)) b
          ≤ (2 * b - 1) * 2 ^ 52 / b + 1 := by
        have hr := roundHalfEven_le (a * 2 ^ (52 + d)) b
        have hdm := Nat.div_le_div_right (c := b) h1
        omega
      have h3 : (2 * b - 1) * 2 ^ 52 / b < 2 ^ 53 - 1 := by
        rw [Nat.div_lt_iff_lt_mul (by omega)]
        have e0 : (2 : Nat) ^ 53 = 2 * 2 ^ 52 := by rw [pow_succ']
        have e1 : (2 * b - 1) * 2 ^ 52 = b * 2 ^ 53 - 2 ^ 52 := by
          rw [Nat.sub_mul, one_mul, e0]
          ring_nf
        have e2 : (2 ^ 53 - 1) * b = b * 2 ^ 53 - b := by
          rw [Nat.sub_mul, one_mul, Nat.mul_comm]
        have e3 : b ≤ b * 2 ^ 53 :=
          Nat.le_mul_of_pos_right b (Nat.two_pow_pos _)
        have e4 : (2 : Nat) ^ 52 ≤ b * 2 ^ 53 := by
          have h5 : (2 : Nat) ^ 52 ≤ 2 ^ 53 := Nat.pow_le_pow_right (by omega) (by omega)
          have h6 : (2 : Nat) ^ 53 ≤ b * 2 ^ 53 := Nat.le_mul_of_pos_left _ (by omega)
          omega
        omega
      omega
    simp only [flMulNat, Nat.mul_one]
    rw [if_pos hm2]
    simp only [dyadicFloor]
    rw [if_neg (by omega)]
    have ht : (- -((52 + d : Nat) : Int)).toNat = 52 + d := by omega
    rw [ht]
    exact Nat.div_eq_of_lt hm1
  by_cases hcond : b * 2 ^ lg a ≤ a * 2 ^ lg b
  · have hflog : flog2 a b = (lg a : Int) - lg b := by
      simp only [flog2]
      rw [if_pos hcond]
    have hs : (52 : Int) - flog2 a b = ((52 + (lg b - lg a) : Nat) : Int) := by
      rw [hflog]
      omega
    have hkey : a * 2 ^ (lg b - lg a) < 2 * b := by
      have h1 : a * 2 ^ (lg b - lg a) < 2 ^ (lg a + 1) * 2 ^ (lg b - lg a) :=
        (Nat.mul_lt_mul_right (Nat.two_pow_pos _)).mpr hA2
      have h2 : (2 : Nat) ^ (lg a + 1) * 2 ^ (lg b - lg a) = 2 * 2 ^ lg b := by
        rw [← pow_add]
        have e : lg a + 1 + (lg b - lg a) = lg b + 1 := by omega
        rw [e, pow_succ']
      have h3 : 2 * 2 ^ lg b ≤ 2 * b := by omega
      omega
    simp only [flDivNat]
    rw [hs, if_pos (Int.natCast_nonneg _), Int.toNat_natCast]
    exact main (lg b - lg a) hkey
  · have hflog : flog2 a b = (lg a : Int) - lg b - 1 := by
      simp only [flog2]
      rw [if_neg hcond]
    have hs : (52 : Int) - flog2 a b = ((52 + (lg b - lg a + 1) : Nat) : Int) := by
      rw [hflog]
      omega
    have hkey : a * 2 ^ (lg b - lg a + 1) < 2 * b := by
      have h0 : a * 2 ^ lg b < b * 2 ^ lg a := by omega
      have h1 : a * 2 ^ (lg b - lg a) < b := by
        apply Nat.lt_of_mul_lt_mul_right (a := 2 ^ lg a)
        have e : a * 2 ^ (lg b - lg a) * 2 ^ lg a = a * 2 ^ lg b := by
          rw [Nat.mul_assoc, ← pow_add]
          congr 2
          omega
        rw [e]
        exact h0
      have e2 : a * 2 ^ (lg b - lg a + 1) = 2 * (a * 2 ^ (lg b - lg a)) := by
        rw [pow_succ]
        ring
      omega
    simp only [flDivNat]
    rw [hs, if_pos (Int.natCast_nonneg _), Int.toNat_natCast]
    exact main (lg b - lg a + 1) hkey

/-- For power-of-two grid dimensions (the default grid is 32×32) and a
source image small enough that the scaled numerator fits in 53 bits —
true of every realistic image — the double computation is exact and
the code-side sample coordinate agrees with the spec's rational-floor
formula. -/
theorem clampSample_pow2_eq_sampleSpec (k imgDim cIdx : Nat)
    (hdim : 1 ≤ imgDim) (hcx : cIdx < 2 ^ k) (hk : k ≤ 60)
    (hbound : (2 * cIdx + 1) * imgDim < 2 ^ 53) :
    clampSample (2 ^ k) imgDim cIdx = (sampleSpec (2 ^ k) imgDim cIdx : Int) := by
  have hpow : 2 * 2 ^ k = 2 ^ (k + 1) := by rw [pow_succ']
  have hpipe : dyadicFloor (flMulNat (flDivNat (2 * cIdx + 1) (2 * 2 ^ k)) imgDim)
      = (2 * cIdx + 1) * imgDim / (2 * 2 ^ k) := by
    rw [hpow]
    exact pipeline_pow2 (2 * cIdx + 1) imgDim (k + 1) (by omega) hdim hbound
      (by omega) (by omega)
  have hs : ((2 * cIdx + 1) * imgDim) / (2 * 2 ^ k) < imgDim := by
    rw [Nat.div_lt_iff_lt_mul (by have := Nat.two_pow_pos k; omega)]
    calc (2 * cIdx + 1) * imgDim < (2 * 2 ^ k) * imgDim :=
          (Nat.mul_lt_mul_right (by omega)).mpr (by omega)
      _ = imgDim * (2 * 2 ^ k) := Nat.mul_comm _ _
  simp only [clampSample, sampleSpec]
  rw [hpipe]
  rw [if_neg (by exact_mod_cast Nat.not_le.mpr hs)]
  rw [Nat.min_eq_right (by omega)]

/-- For a 1-pixel image dimension the code-side sample coordinate is 0
for every in-range cell, as the spec's formula also gives. -/
theorem clampSample_one_dim (cells cIdx : Nat) (hcx : cIdx < cells)
    (hcells : cells < 2 ^ 51) :
    clampSample cells 1 cIdx = 0 := by
  have hpipe : dyadicFloor (flMulNat (flDivNat (2 * cIdx + 1) (2 * cells)) 1) = 0 := by
    apply pipeline_one
    · omega
    · omega
    · have h1 : (2 : Nat) ^ 52 = 2 * 2 ^ 51 := by rw [pow_succ']
      omega
  simp only [clampSample]
  rw [hpipe]
  norm_num

/-- A 90×1 image, white exactly at column 63 and black elsewhere:
the column the claim's exact-floor formula selects for cell 3 of a
5-wide grid differs from the column the program reads. -/
def c4Image : Image :=
  ⟨90, 1, fun x _ => if x = 63 then ⟨255, 255, 255, 255⟩ else ⟨0, 0, 0, 255⟩⟩

/-- C4 counterexample: at grid width 5 (grid dimensions come from the
command line) and image width 90, the double computation of line 184
yields sample column 62 — the IEEE product is 62.99999999999999289 —
while the claim's `floor((cx+0.5)/W*img_w)` gives 63.  Importing
`c4Image` into a 5×1 grid stores black's index 1 in cell (3,0), not
index 0 of the white pixel the claim's formula designates. -/
theorem C4_exact_floor_formula_fails :
    clampSample 5 90 3 = 62 ∧
    (sampleSpec 5 90 3 : Int) = 63 ∧
    (load_bmp_to_canvas defaultPalette 5 1 (some c4Image)
        [0, 0, 0, 0, 0]).snd.getD 3 0 = 1 ∧
    nearest_palette_index defaultPalette
      ⟨(c4Image.pixel (sampleSpec 5 90 3) (sampleSpec 1 1 0)).r,
       (c4Image.pixel (sampleSpec 5 90 3) (sampleSpec 1 1 0)).g,
       (c4Image.pixel (sampleSpec 5 90 3) (sampleSpec 1 1 0)).b, 255⟩ = 0 := by
  refine ⟨by decide, by decide, by decide, by decide⟩

/-- C4 (amended): importing reports success and sets each in-range
grid cell to the nearest-palette index of the RGB the program reads at
its double-computed sample point, alpha forced opaque.  The claim's
exact-floor sample formula holds wherever the double arithmetic is
exact: for power-of-two grid dimensions (the default grid is 32×32)
with any image whose scaled numerator fits in 53 bits — true of every
realistic image — and for 1×1 sources, which map every cell to the
single pixel's nearest index, on any grid of int-sized dimensions. -/
theorem C4_import_sampling_amended (pal : List SDLColor) (W H : Nat)
    (im : Image) (canvas : List Nat) (cx cy : Nat)
    (hw : 1 ≤ im.w) (hh : 1 ≤ im.h) (hcx : cx < W) (hcy : cy < H) :
    (load_bmp_to_canvas pal W H (some im) canvas).fst = 0 ∧
    (∀ kw kh, W = 2 ^ kw → H = 2 ^ kh → kw ≤ 60 → kh ≤ 60 →
      (2 * cx + 1) * im.w < 2 ^ 53 → (2 * cy + 1) * im.h < 2 ^ 53 →
      (load_bmp_to_canvas pal W H (some im) canvas).snd.getD (cy * W + cx) 0
        = nearest_palette_index pal
            ⟨(im.pixel (sampleSpec W im.w cx) (sampleSpec H im.h cy)).r,
             (im.pixel (sampleSpec W im.w cx) (sampleSpec H im.h cy)).g,
             (im.pixel (sampleSpec W im.w cx) (sampleSpec H im.h cy)).b, 255⟩) ∧
    (im.w = 1 → im.h = 1 → W < 2 ^ 51 → H < 2 ^ 51 →
      (load_bmp_to_canvas pal W H (some im) canvas).snd.getD (cy * W + cx) 0
        = nearest_palette_index pal
            ⟨(im.pixel 0 0).r, (im.pixel 0 0).g, (im.pixel 0 0).b, 255⟩) := by
  have hmod : (cy * W + cx) % W = cx := by
    rw [Nat.mul_comm cy W, Nat.mul_add_mod]
    exact Nat.mod_eq_of_lt hcx
  have hdiv : (cy * W + cx) / W = cy := by
    rw [Nat.mul_comm cy W, Nat.mul_add_div (by omega), Nat.div_eq_of_lt hcx]
    omega
  have hcell : (load_bmp_to_canvas pal W H (some im) canvas).snd.getD
      (cy * W + cx) 0 = loadCell pal W H im cx cy := by
    show ((List.range (W * H)).map fun idx =>
        loadCell pal W H im (idx % W) (idx / W)).getD (cy * W + cx) 0 = _
    rw [getD_range_map _ _ _ _ (cell_index_lt W H cx cy hcx hcy)]
    rw [hmod, hdiv]
  refine ⟨rfl, ?_, ?_⟩
  · intro kw kh hW hH hkw hkh hbx hby
    rw [hcell]
    simp only [loadCell]
    subst hW
    subst hH
    rw [clampSample_pow2_eq_sampleSpec kw im.w cx hw hcx hkw hbx,
      clampSample_pow2_eq_sampleSpec kh im.h cy hh hcy hkh hby]
  · intro he1 he2 hW51 hH51
    rw [hcell]
    simp only [loadCell]
    rw [he1, he2]
    rw [clampSample_one_dim W cx hcx hW51, clampSample_one_dim H cy hcy hH51]

/-- C4 witness: importing a constant 3×2 image into the 2×2 grid
succeeds, and — since 2 = 2¹ — cell (0,0) receives the nearest index
of the pixel at the spec-formula sample point, with all hypotheses
holding at this input. -/
theorem C4_import_sampling_amended_witness :
    (1 ≤ (3 : Nat) ∧ 1 ≤ (2 : Nat) ∧ 0 < 2 ∧ 0 < 2 ∧ (2 : Nat) = 2 ^ 1 ∧
      (2 * 0 + 1) * 3 < 2 ^ 53 ∧ (2 * 0 + 1) * 2 < 2 ^ 53) ∧
    (load_bmp_to_canvas defaultPalette 2 2
        (some ⟨3, 2, fun _ _ => ⟨10, 200, 30, 255⟩⟩) [0, 0, 0, 0]).fst = 0 ∧
    (load_bmp_to_canvas defaultPalette 2 2
        (some ⟨3, 2, fun _ _ => ⟨10, 200, 30, 255⟩⟩) [0, 0, 0, 0]).snd.getD 0 0
      = nearest_palette_index defaultPalette
          ⟨(Image.pixel ⟨3, 2, fun _ _ => ⟨10, 200, 30, 255⟩⟩
              (sampleSpec 2 3 0) (sampleSpec 2 2 0)).r,
           (Image.pixel ⟨3, 2, fun _ _ => ⟨10, 200, 30, 255⟩⟩
              (sampleSpec 2 3 0) (sampleSpec 2 2 0)).g,
           (Image.pixel ⟨3, 2, fun _ _ => ⟨10, 200, 30, 255⟩⟩
              (sampleSpec 2 3 0) (sampleSpec 2 2 0)).b, 255⟩ :=
  ⟨⟨by decide, by decide, by decide, by decide, by decide, by decide, by decide⟩,
   (C4_import_sampling_amended defaultPalette 2 2
      ⟨3, 2, fun _ _ => ⟨10, 200, 30, 255⟩⟩ [0, 0, 0, 0] 0 0
      (by decide) (by decide) (by decide) (by decide)).1,
   (C4_import_sampling_amended defaultPalette 2 2
      ⟨3, 2, fun _ _ => ⟨10, 200, 30, 255⟩⟩ [0, 0, 0, 0] 0 0
      (by decide) (by decide) (by decide) (by decide)).2.1 1 1
      (by decide) (by decide) (by decide) (by decide) (by decide) (by decide)⟩

/-- With byte-sized channels the packed word is the positional sum of
the channels: the three ors combine disjoint byte ranges. -/
theorem packRGBA_eq_sum (c : SDLColor) (hc : c.Valid) :
    packRGBA c = c.r * 2 ^ 24 + c.g * 2 ^ 16 + c.b * 2 ^ 8 + c.a := by
  obtain ⟨h1, h2, h3, h4⟩ := hc
  unfold packRGBA
  rw [Nat.shiftLeft_eq, Nat.shiftLeft_eq, Nat.shiftLeft_eq]
  rw [Nat.or_assoc, Nat.or_assoc]
  rw [Nat.mul_comm c.b (2 ^ 8), Nat.mul_comm c.g (2 ^ 16),
    Nat.mul_comm c.r (2 ^ 24)]
  rw [← Nat.mul_add_lt_is_or (by omega) c.b]
  rw [← Nat.mul_add_lt_is_or (i := 16) (by omega) c.g]
  rw [← Nat.mul_add_lt_is_or (i := 24) (by omega) c.r]
  ring

/-- On big-endian builds the surface masks decode the packed word back
to the original color: the packing of line 135 matches the big-endian
masks of line 142. -/
theorem interpret_pack_bigEndian (c : SDLColor) (hc : c.Valid) :
    interpretColor true (packRGBA c) = c := by
  have hsum := packRGBA_eq_sum c hc
  obtain ⟨h1, h2, h3, h4⟩ := hc
  unfold interpretColor
  rw [if_pos rfl, hsum]
  cases c with
  | mk r g b a =>
      simp only at h1 h2 h3 h4 ⊢
      congr 1
      · rw [Nat.shiftRight_eq_div_pow,
          show (255 : Nat) = 2 ^ 8 - 1 from rfl,
          Nat.and_pow_two_sub_one_eq_mod]
        omega
      · rw [Nat.shiftRight_eq_div_pow,
          show (255 : Nat) = 2 ^ 8 - 1 from rfl,
          Nat.and_pow_two_sub_one_eq_mod]
        omega
      · rw [Nat.shiftRight_eq_div_pow,
          show (255 : Nat) = 2 ^ 8 - 1 from rfl,
          Nat.and_pow_two_sub_one_eq_mod]
        omega
      · rw [show (255 : Nat) = 2 ^ 8 - 1 from rfl,
          Nat.and_pow_two_sub_one_eq_mod]
        omega

/-- On a color whose RGB triple occurs at index `k` of a palette with
pairwise distinct RGB entries, the quantizer returns exactly `k`. -/
theorem nearest_exact_eq (pal : List SDLColor) (c : SDLColor) (k : Nat)
    (hk : k < pal.length)
    (hr : (pal.getD k dfltColor).r = c.r)
    (hg : (pal.getD k dfltColor).g = c.g)
    (hb : (pal.getD k dfltColor).b = c.b)
    (hdis : ∀ i j, i < j → j < pal.length →
      ¬((pal.getD i dfltColor).r = (pal.getD j dfltColor).r ∧
        (pal.getD i dfltColor).g = (pal.getD j dfltColor).g ∧
        (pal.getD i dfltColor).b = (pal.getD j dfltColor).b)) :
    nearest_palette_index pal c = k := by
  have hdk : colorDist c (pal.getD k dfltColor) = 0 :=
    (colorDist_eq_zero_iff c _).mpr ⟨hr, hg, hb⟩
  rcases nearestAux_spec c pal 0 0 2147483647 with ⟨heq, hall⟩ | ⟨j, hj, heq, hlt, hmin, hstrict⟩
  · exfalso
    have := hall k hk
    omega
  · have hres : nearest_palette_index pal c = j := by
      unfold nearest_palette_index
      rw [heq]
      omega
    rw [hres]
    have hdj0 : colorDist c (pal.getD j dfltColor) = 0 := by
      have hm := hmin k hk
      have hn := colorDist_nonneg c (pal.getD j dfltColor)
      omega
    obtain ⟨e1, e2, e3⟩ := (colorDist_eq_zero_iff c _).mp hdj0
    by_contra hne
    rcases Nat.lt_or_ge j k with hjk | hkj
    · exact hdis j k hjk hk ⟨by rw [e1, hr], by rw [e2, hg], by rw [e3, hb]⟩
    · have hkj' : k < j := by omega
      have := hstrict k hkj'
      omega

theorem center_div (a S : Nat) (hS : 1 ≤ S) : (a * S + S / 2) / S = a := by
  rw [show a * S + S / 2 = S * a + S / 2 by ring, Nat.mul_add_div (by omega),
    Nat.div_eq_of_lt (Nat.div_lt_self (by omega) (by omega))]
  omega

theorem center_lt (a b S : Nat) (hS : 1 ≤ S) (h : a < b) :
    a * S + S / 2 < b * S := by
  have h1 : S / 2 < S := Nat.div_lt_self (by omega) (by omega)
  have h2 : (a + 1) * S ≤ b * S := Nat.mul_le_mul_right S (by omega)
  have h3 : (a + 1) * S = a * S + S := by ring
  omega

/-- At an exactly-scaled raster (`imgDim = W·S`, power-of-two `W`, so
that the double arithmetic is exact) the clamped sample coordinate is
the cell's center pixel `cIdx·S + S/2`. -/
theorem clampSample_exact_scale (k S cIdx : Nat) (hS : 1 ≤ S)
    (hc : cIdx < 2 ^ k) (hk : k ≤ 60)
    (hbound : (2 * cIdx + 1) * (2 ^ k * S) < 2 ^ 53) :
    clampSample (2 ^ k) (2 ^ k * S) cIdx = ((cIdx * S + S / 2 : Nat) : Int) := by
  have hdim : 1 ≤ 2 ^ k * S := by
    have h1 := Nat.two_pow_pos k
    have h2 := Nat.mul_le_mul h1 hS
    omega
  rw [clampSample_pow2_eq_sampleSpec k (2 ^ k * S) cIdx hdim hc hk hbound]
  have hnum : (2 * cIdx + 1) * (2 ^ k * S) / (2 * 2 ^ k) = cIdx * S + S / 2 := by
    rw [show (2 * cIdx + 1) * (2 ^ k * S) = ((2 * cIdx + 1) * S) * 2 ^ k by ring]
    rw [Nat.mul_div_mul_right _ _ (Nat.two_pow_pos k)]
    rw [show (2 * cIdx + 1) * S = 2 * (cIdx * S) + S by ring]
    rw [Nat.mul_add_div (by omega)]
  have hlt : cIdx * S + S / 2 < 2 ^ k * S := center_lt cIdx (2 ^ k) S hS hc
  simp only [sampleSpec]
  rw [hnum]
  congr 1
  exact Nat.min_eq_right (by omega)

/-- On big-endian builds the full export/import round trip at matching
power-of-two grid dimensions (the default grid is 32×32) reproduces
every stored index, for any cell size `S ≥ 1` of realistic magnitude,
any palette of valid colors pairwise distinct in RGB, and any canvas
of in-range indices: the double-computed center sample of each cell
lands inside the block exported from that same cell, the packed word
decodes to the original palette color, and the quantizer maps the
exact color back to its index.  This isolates the little-endian
failure of the round trip to the byte packing alone. -/
theorem roundTrip_bigEndian_id (pal : List SDLColor) (W H S kw kh : Nat)
    (canvas : List Nat) (cx cy : Nat) (hS : 1 ≤ S)
    (hW : W = 2 ^ kw) (hH : H = 2 ^ kh) (hkw : kw ≤ 60) (hkh : kh ≤ 60)
    (hbx : (2 * cx + 1) * (W * S) < 2 ^ 53)
    (hby : (2 * cy + 1) * (H * S) < 2 ^ 53)
    (hcx : cx < W) (hcy : cy < H) (hlen : canvas.length = W * H)
    (hpal : ∀ p ∈ pal, p.Valid)
    (hdis : ∀ i j, i < j → j < pal.length →
      ¬((pal.getD i dfltColor).r = (pal.getD j dfltColor).r ∧
        (pal.getD i dfltColor).g = (pal.getD j dfltColor).g ∧
        (pal.getD i dfltColor).b = (pal.getD j dfltColor).b))
    (hcells : ∀ c ∈ canvas, c < pal.length) :
    (roundTrip true pal W H S canvas).getD (cy * W + cx) 0
      = canvas.getD (cy * W + cx) 0 := by
  have hmod : (cy * W + cx) % W = cx := by
    rw [Nat.mul_comm cy W, Nat.mul_add_mod]
    exact Nat.mod_eq_of_lt hcx
  have hdiv : (cy * W + cx) / W = cy := by
    rw [Nat.mul_comm cy W, Nat.mul_add_div (by omega), Nat.div_eq_of_lt hcx]
    omega
  have hidx : cy * W + cx < canvas.length := by
    rw [hlen]; exact cell_index_lt W H cx cy hcx hcy
  have hk : canvas.getD (cy * W + cx) 0 < pal.length := by
    apply hcells
    rw [List.getD_eq_getElem canvas 0 hidx]
    exact List.getElem_mem hidx
  have hkmem : pal.getD (canvas.getD (cy * W + cx) 0) dfltColor ∈ pal := by
    rw [List.getD_eq_getElem pal dfltColor hk]
    exact List.getElem_mem hk
  show ((List.range (W * H)).map fun idx =>
      loadCell pal W H (save_canvas_as_bmp true pal W H S canvas)
        (idx % W) (idx / W)).getD (cy * W + cx) 0 = _
  rw [getD_range_map _ _ _ _ (cell_index_lt W H cx cy hcx hcy), hmod, hdiv]
  simp only [loadCell]
  rw [show (save_canvas_as_bmp true pal W H S canvas).w = W * S from rfl,
    show (save_canvas_as_bmp true pal W H S canvas).h = H * S from rfl]
  have hcsx : clampSample W (W * S) cx = ((cx * S + S / 2 : Nat) : Int) := by
    subst hW
    exact clampSample_exact_scale kw S cx hS hcx hkw hbx
  have hcsy : clampSample H (H * S) cy = ((cy * S + S / 2 : Nat) : Int) := by
    subst hH
    exact clampSample_exact_scale kh S cy hS hcy hkh hby
  rw [hcsx, hcsy]
  have hpix : (save_canvas_as_bmp true pal W H S canvas).pixel
      ((cx * S + S / 2 : Nat) : Int) ((cy * S + S / 2 : Nat) : Int)
      = pal.getD (canvas.getD (cy * W + cx) 0) dfltColor := by
    simp only [save_canvas_as_bmp]
    rw [if_pos ?hcond]
    case hcond =>
      refine ⟨by omega, ?_, by omega, ?_⟩
      · exact_mod_cast center_lt cx W S hS hcx
      · exact_mod_cast center_lt cy H S hS hcy
    rw [show ((cx * S + S / 2 : Nat) : Int).toNat = cx * S + S / 2 from
        Int.toNat_natCast _,
      show ((cy * S + S / 2 : Nat) : Int).toNat = cy * S + S / 2 from
        Int.toNat_natCast _]
    simp only [exportPixel]
    rw [center_div cx S hS, center_div cy S hS]
    exact interpret_pack_bigEndian _ (hpal _ hkmem)
  rw [hpix]
  exact nearest_exact_eq pal _ _ hk rfl rfl rfl hdis

/-- The safety invariant maintained by the event loop: every stored
cell index and the selected color are valid palette indices, and the
palette is the one installed at startup. -/
def Inv (s : EditorState) : Prop :=
  (∀ c ∈ s.canvas, c < PALETTE_COUNT) ∧
  0 ≤ s.currentColor ∧ s.currentColor < (PALETTE_COUNT : Int) ∧
  s.palette = defaultPalette

theorem mem_paint (W H : Nat) (canvas : List Nat) (x y color : Int)
    (c : Nat) (hc : c ∈ paint W H canvas x y color) :
    c ∈ canvas ∨ c = (color % 256).toNat := by
  unfold paint at hc
  split at hc
  · exact List.mem_or_eq_of_mem_set hc
  · exact Or.inl hc

theorem Inv_paintAt (s : EditorState) (button : Nat) (mx my : Int)
    (h : Inv s) : Inv (paintAt s button mx my) := by
  obtain ⟨hcv, h0, h12, hpal⟩ := h
  unfold paintAt
  split
  · refine ⟨?_, h0, h12, hpal⟩
    intro c hc
    rcases mem_paint _ _ _ _ _ _ _ hc with hmem | hval
    · exact hcv c hmem
    · have hPC : PALETTE_COUNT = 12 := rfl
      have h12' : s.currentColor < 12 := by omega
      omega
  · split
    · refine ⟨?_, h0, h12, hpal⟩
      intro c hc
      rcases mem_paint _ _ _ _ _ _ _ hc with hmem | hval
      · exact hcv c hmem
      · have hPC : PALETTE_COUNT = 12 := rfl
        omega
    · exact ⟨hcv, h0, h12, hpal⟩

theorem Inv_paletteClick (s : EditorState) (mx my : Int)
    (h : Inv s) : Inv (paletteClick s mx my) := by
  obtain ⟨hcv, h0, h12, hpal⟩ := h
  simp only [paletteClick]
  split
  · split
    · next hguard => exact ⟨hcv, hguard.1, hguard.2, hpal⟩
    · exact ⟨hcv, h0, h12, hpal⟩
  · exact ⟨hcv, h0, h12, hpal⟩

theorem Inv_step (s : EditorState) (e : Event) (h : Inv s) :
    Inv (step s e) := by
  obtain ⟨hcv, h0, h12, hpal⟩ := h
  cases e with
  | mouseButtonDown button mx my =>
      simp only [step]
      split
      · exact Inv_paintAt _ _ _ _ ⟨hcv, h0, h12, hpal⟩
      · exact Inv_paletteClick _ _ _ ⟨hcv, h0, h12, hpal⟩
  | mouseButtonUp => exact ⟨hcv, h0, h12, hpal⟩
  | mouseMotion mx my =>
      simp only [step]
      split
      · split
        · exact Inv_paintAt _ _ _ _ ⟨hcv, h0, h12, hpal⟩
        · exact ⟨hcv, h0, h12, hpal⟩
      · exact ⟨hcv, h0, h12, hpal⟩
  | keyClear =>
      refine ⟨?_, h0, h12, hpal⟩
      intro c hc
      have := List.eq_of_mem_replicate hc
      have hPC : PALETTE_COUNT = 12 := rfl
      omega
  | keyToggleGrid => exact ⟨hcv, h0, h12, hpal⟩
  | keySave => exact ⟨hcv, h0, h12, hpal⟩
  | keyLoad img =>
      refine ⟨?_, h0, h12, hpal⟩
      intro c hc
      cases img with
      | none => exact hcv c hc
      | some im =>
          simp only [step, load_bmp_to_canvas] at hc
          rcases List.mem_map.mp hc with ⟨idx, _, heq⟩
          rw [hpal] at heq
          rw [← heq]
          exact nearest_lt_length defaultPalette _ (by decide)
  | keyLeftBracket =>
      simp only [step]
      split
      · exact ⟨hcv, h0, h12, hpal⟩
      · exact ⟨hcv, h0, h12, hpal⟩
  | keyRightBracket => exact ⟨hcv, h0, h12, hpal⟩
  | keyDigit n =>
      simp only [step]
      split
      · next hn =>
          refine ⟨hcv, ?_, ?_, hpal⟩
          · show (0 : Int) ≤ (n : Int)
            omega
          · show ((n : Int)) < ((PALETTE_COUNT : Nat) : Int)
            exact_mod_cast hn
      · exact ⟨hcv, h0, h12, hpal⟩

theorem Inv_initState (w h : Int) : Inv (initState w h) := by
  refine ⟨?_, ?_, ?_, rfl⟩
  case refine_2 => show (0 : Int) ≤ 1; decide
  case refine_3 => show (1 : Int) < ((PALETTE_COUNT : Nat) : Int); decide
  intro c hc
  have := List.eq_of_mem_replicate hc
  have hPC : PALETTE_COUNT = 12 := rfl
  omega

theorem Inv_run (s : EditorState) (events : List Event) (h : Inv s) :
    Inv (run s events) := by
  induction events generalizing s with
  | nil => exact h
  | cons e es ih => exact ih (step s e) (Inv_step s e h)

/-- C6: in every state reachable from startup through any event
sequence, every index stored in a canvas cell is a valid palette index
below `PALETTE_COUNT`. -/
theorem C6_canvas_indices_always_valid (w h : Int) (events : List Event)
    (c : Nat) (hc : c ∈ (run (initState w h) events).canvas) :
    c < PALETTE_COUNT :=
  (Inv_run (initState w h) events (Inv_initState w h)).1 c hc

/-- C6 witness: after startup with a 2×2 grid and no events, the value
0 is stored somewhere on the canvas and is below `PALETTE_COUNT`. -/
theorem C6_canvas_indices_always_valid_witness :
    (0 ∈ (run (initState 2 2) []).canvas) ∧ 0 < PALETTE_COUNT :=
  ⟨by decide, C6_canvas_indices_always_valid 2 2 [] 0 (by decide)⟩

/-- C10: the selected color starts at 1 and stays a valid palette
index in `[0, PALETTE_COUNT)` in every reachable state: the number-key
and palette-click handlers assign only after their range guards. -/
theorem C10_current_color_always_valid (w h : Int) (events : List Event) :
    (initState w h).currentColor = 1 ∧
    0 ≤ (run (initState w h) events).currentColor ∧
    (run (initState w h) events).currentColor < (PALETTE_COUNT : Int) := by
  refine ⟨rfl, ?_, ?_⟩
  · exact (Inv_run (initState w h) events (Inv_initState w h)).2.1
  · exact (Inv_run (initState w h) events (Inv_initState w h)).2.2.1

/-- C1: the export/import round trip does not reproduce the grid on
little-endian builds.  A 1×1 canvas holding palette index 1 (black),
exported at cell size 1 and imported back at the same grid size with
the default palette (pairwise distinct in RGB), comes back as index 2
(red): the packed word `(r<<24)|(g<<16)|(b<<8)|a` is decoded through
the little-endian masks, which place red in the low byte, so the saved
red channel receives the alpha value 255. -/
theorem C1_roundTrip_littleEndian_fails :
    roundTrip false defaultPalette 1 1 1 [1] = [2] ∧
    roundTrip false defaultPalette 1 1 1 [1] ≠ [1] := by
  constructor
  · decide
  · decide

/-- C2: on little-endian builds the exported channels do not land in
the format's red, green, blue, alpha positions.  Packing black
`(0,0,0,255)` (palette entry 1) and decoding it through the
little-endian surface masks yields `(255,0,0,0)`: the red position
holds the alpha value, the alpha position holds the red value. -/
theorem C2_channel_layout_littleEndian_fails :
    interpretColor false (packRGBA ⟨0, 0, 0, 255⟩) = ⟨255, 0, 0, 0⟩ ∧
    interpretColor true (packRGBA ⟨0, 0, 0, 255⟩) = ⟨0, 0, 0, 255⟩ := by
  constructor
  · decide
  · decide

/-- C5: a zero-dimension source image is not rejected.  Importing a
successfully decoded 0×1 image into a 2×2 canvas returns 0 (success,
not failure) and overwrites every cell — the clamp `sx = img_w - 1`
produces the out-of-bounds read coordinate -1 — where the claim
requires a failure result with the canvas left untouched. -/
theorem C5_zero_dimension_not_rejected :
    (load_bmp_to_canvas defaultPalette 2 2 (some zeroWidthImage)
        [3, 3, 3, 3]).fst = 0 ∧
    (load_bmp_to_canvas defaultPalette 2 2 (some zeroWidthImage)
        [3, 3, 3, 3]).snd ≠ [3, 3, 3, 3] ∧
    clampSample 2 zeroWidthImage.w 0 = -1 := by
  refine ⟨by decide, by decide, by decide⟩

/-- C8: after `clear_canvas` every in-range cell reads back 0, whatever
the canvas held before, and the cleared canvas really has a cell at
that position. -/
theorem C8_clear_reads_zero (s : EditorState) (x y : Nat)
    (hx : x < s.cellsX) (hy : y < s.cellsY) :
    get s.cellsX (step s .keyClear).canvas x y = 0 ∧
    y * s.cellsX + x < (step s .keyClear).canvas.length := by
  constructor
  · show (clear_canvas s.cellsX s.cellsY).getD (y * s.cellsX + x) 0 = 0
    exact getD_replicate_zero _ _
  · show y * s.cellsX + x < (clear_canvas s.cellsX s.cellsY).length
    simpa [clear_canvas] using cell_index_lt _ _ _ _ hx hy

/-- C8 witness: clearing the startup 2×2 editor state makes cell (1,1)
read 0, and that cell exists. -/
theorem C8_clear_reads_zero_witness :
    (1 < (initState 2 2).cellsX ∧ 1 < (initState 2 2).cellsY) ∧
    (get (initState 2 2).cellsX (step (initState 2 2) .keyClear).canvas 1 1 = 0 ∧
     1 * (initState 2 2).cellsX + 1 < (step (initState 2 2) .keyClear).canvas.length) :=
  ⟨by decide, C8_clear_reads_zero (initState 2 2) 1 1 (by decide) (by decide)⟩

/-- C9: changing the on-screen cell size with the bracket keys leaves
every canvas cell, the palette and the selected color unchanged, in
every prior state. -/
theorem C9_resize_preserves_state (s : EditorState) :
    ((step s .keyLeftBracket).canvas = s.canvas ∧
     (step s .keyLeftBracket).palette = s.palette ∧
     (step s .keyLeftBracket).currentColor = s.currentColor) ∧
    ((step s .keyRightBracket).canvas = s.canvas ∧
     (step s .keyRightBracket).palette = s.palette ∧
     (step s .keyRightBracket).currentColor = s.currentColor) := by
  constructor
  · simp only [step]
    split <;> simp
  · simp only [step]
    simp

/-- C7: painting an in-range cell with an in-range index makes a
subsequent read of that cell return the index; painting out of range
changes nothing (and signals nothing). -/
theorem C7_paint_then_get (W H : Nat) (canvas : List Nat) (x y : Int)
    (i : Nat) (hlen : canvas.length = W * H) :
    ((0 ≤ x ∧ x < (W : Int) ∧ 0 ≤ y ∧ y < (H : Int)) → i < PALETTE_COUNT →
        get W (paint W H canvas x y (i : Int)) x.toNat y.toNat = i) ∧
    (¬(0 ≤ x ∧ x < (W : Int) ∧ 0 ≤ y ∧ y < (H : Int)) →
        paint W H canvas x y (i : Int) = canvas) := by
  constructor
  · intro hin hi
    unfold paint get
    rw [if_pos hin]
    obtain ⟨hx0, hxW, hy0, hyH⟩ := hin
    have hxW' : x.toNat < W := by omega
    have hyH' : y.toNat < H := by omega
    have hidx : y.toNat * W + x.toNat < canvas.length := by
      rw [hlen]; exact cell_index_lt W H x.toNat y.toNat hxW' hyH'
    have hi12 : i < 12 := by
      have h12 : PALETTE_COUNT = 12 := rfl
      omega
    have hval : (((i : Int)) % 256).toNat = i := by omega
    rw [hval]
    exact getD_set_self canvas _ i hidx
  · intro hout
    unfold paint
    rw [if_neg hout]

/-- C7 witness: on a 2×2 canvas, painting cell (0,1) with index 4 then
reading it gives 4; painting at x = 5 leaves the canvas unchanged. -/
theorem C7_paint_then_get_witness :
    (([5, 5, 5, 5] : List Nat).length = 2 * 2) ∧
    get 2 (paint 2 2 [5, 5, 5, 5] 0 1 ((4 : Nat) : Int)) 0 1 = 4 ∧
    paint 2 2 [5, 5, 5, 5] 5 1 ((4 : Nat) : Int) = [5, 5, 5, 5] :=
  ⟨by decide,
   (C7_paint_then_get 2 2 [5, 5, 5, 5] 0 1 4 (by decide)).1
     (by refine ⟨by decide, by decide, by decide, by decide⟩) (by decide),
   (C7_paint_then_get 2 2 [5, 5, 5, 5] 5 1 4 (by decide)).2 (by decide)⟩

end PixelEditor
